import Mathlib

/-!
Verification of the `rust-play` repository.

Part 1 embeds `src/rust/minesweeper/src/lib.rs`: the function `annotate`
together with its helpers `update_adjacent_cells` and `increment_cell_value`.
Rows of the minefield are lists of bytes (modelled as `Nat`; the Rust code
works on `u8` values obtained from `str::as_bytes`, and the `u8` wrap-around
of `+=` is modelled by an explicit `% 256`).  The Rust indexing
`grid[target_row][target_col]` panics when out of bounds, so the embedded
mutation step returns an `Option`: `none` models the panic.  `usize`
arithmetic (`wrapping_add_signed`) is modelled on `Nat` with an explicit
modulus `2 ^ 64`.

Part 2 embeds `src/compare-implemantations/src/anagram.rs` (v1) and
`src/compare-implemantations/src/anagram_v2.rs` (v2).  Strings are modelled
as lists of characters; `str::to_lowercase` is modelled character-wise and
`sort_unstable` by insertion sort (equal characters are indistinguishable,
so any correct sort produces the same list).
-/

namespace Minesweeper

/-- `const SPACE_CHAR: u8 = b' '` (ASCII 32). -/
def SPACE_CHAR : Nat := 32

/-- `const MINE_CHAR: u8 = b'*'` (ASCII 42). -/
def MINE_CHAR : Nat := 42

/-- `const DIGIT_ONE: u8 = b'1'` (ASCII 49). -/
def DIGIT_ONE : Nat := 49

/-- A minefield: each row is the byte sequence of one input string. -/
abbrev Grid := List (List Nat)

/-- Number of values of the Rust `usize` type. -/
def USIZE : Nat := 2 ^ 64

/-- `usize::wrapping_add_signed`: add a signed offset, wrapping modulo `2 ^ 64`. -/
def wrapping_add_signed (n : Nat) (off : Int) : Nat :=
  (((n : Int) + off) % (USIZE : Int)).toNat

/-- Read the byte of `grid[r][c]`; `none` when the index is out of bounds. -/
def getCell (g : Grid) (r c : Nat) : Option Nat :=
  match g.get? r with
  | none => none
  | some row => row.get? c

/-- `increment_cell_value` from the Rust source: branchless update of one cell.
`is_not_mine`, `is_empty_space` and `is_digit` are the 0/1 flags of the code;
the `u8` addition `*cell += ...` wraps, hence the `% 256`. -/
def increment_cell_value (cell : Nat) : Nat :=
  let is_not_mine : Nat := if cell ≠ MINE_CHAR then 1 else 0
  let is_empty_space : Nat := if cell = SPACE_CHAR then 1 else 0
  let is_digit : Nat :=
    if (cell &&& 0xF0) = 0x30 ∧ (cell &&& 0x0F) ≤ 8 then 1 else 0
  (cell + is_not_mine * ((DIGIT_ONE - SPACE_CHAR) * is_empty_space + is_digit)) % 256

/-- `increment_cell_value(&mut grid[r][c])`: read the cell (panicking — `none` —
when out of bounds, as Rust slice indexing does) and write back the
incremented value. -/
def incrementAt (g : Grid) (r c : Nat) : Option Grid :=
  match g.get? r with
  | none => none
  | some row =>
    match row.get? c with
    | none => none
    | some v => some (g.set r (row.set c (increment_cell_value v)))

/-- The eight direction offsets, in the order the unrolled
`process_neighbor_cell!` invocations appear in `update_adjacent_cells`. -/
def neighborOffsets : List (Int × Int) :=
  [(-1, -1), (-1, 0), (-1, 1), (0, -1), (0, 1), (1, -1), (1, 0), (1, 1)]

/-- One expansion of the `process_neighbor_cell!` macro: compute the target
coordinates with wrapping arithmetic, and update the cell when the bounds
check `(target_row < max_rows) & (target_col < max_cols)` passes. -/
def process_neighbor_cell (g : Grid) (mine_row mine_col max_rows max_cols : Nat)
    (p : Int × Int) : Option Grid :=
  let target_row := wrapping_add_signed mine_row p.1
  let target_col := wrapping_add_signed mine_col p.2
  if target_row < max_rows ∧ target_col < max_cols then
    incrementAt g target_row target_col
  else
    some g

/-- Run the macro expansions for a list of offsets in sequence. -/
def process_neighbors (g : Grid) (mine_row mine_col max_rows max_cols : Nat) :
    List (Int × Int) → Option Grid
  | [] => some g
  | p :: ps =>
    match process_neighbor_cell g mine_row mine_col max_rows max_cols p with
    | none => none
    | some g' => process_neighbors g' mine_row mine_col max_rows max_cols ps

/-- `update_adjacent_cells`: the eight unrolled neighbor updates. -/
def update_adjacent_cells (g : Grid) (mine_row mine_col max_rows max_cols : Nat) :
    Option Grid :=
  process_neighbors g mine_row mine_col max_rows max_cols neighborOffsets

/-- Inner loop of Phase 2: `for (col_index, &current_cell) in
current_row_bytes.iter().enumerate()`, firing `update_adjacent_cells` on the
working grid at every mine of the original input row. -/
def scan_cols (row : List Nat) (row_index col_index total_rows total_cols : Nat)
    (g : Grid) : Option Grid :=
  match row with
  | [] => some g
  | cell :: rest =>
    match (if cell = MINE_CHAR then
             update_adjacent_cells g row_index col_index total_rows total_cols
           else some g) with
    | none => none
    | some g' => scan_cols rest row_index (col_index + 1) total_rows total_cols g'

/-- Outer loop of Phase 2: `for (row_index, current_row_str) in
minefield.iter().enumerate()`. -/
def scan_rows (rows : Grid) (row_index total_rows total_cols : Nat) (g : Grid) :
    Option Grid :=
  match rows with
  | [] => some g
  | row :: rest =>
    match scan_cols row row_index 0 total_rows total_cols g with
    | none => none
    | some g' => scan_rows rest (row_index + 1) total_rows total_cols g'

/-- `annotate`: empty-input early return, then Phase 1 (the working grid is a
byte-for-byte copy of the input, so it starts equal to the input), Phase 2
(scan the original input for mines, updating the working grid), and Phase 3
(byte rows back to strings — the identity on the byte content).  `none`
models a panic of the Rust code. -/
def annotate (minefield : Grid) : Option Grid :=
  if minefield = [] then
    some []
  else
    let total_rows := minefield.length
    let total_cols := (minefield.headD []).length
    let result_grid := minefield
    scan_rows minefield 0 total_rows total_cols result_grid

/-- Mines of one input row, with their positions (`ri` fixed, columns from `ci`). -/
def minePositionsRow : List Nat → Nat → Nat → List (Nat × Nat)
  | [], _, _ => []
  | v :: rest, ri, ci =>
    (if v = MINE_CHAR then [(ri, ci)] else []) ++ minePositionsRow rest ri (ci + 1)

/-- Mines of the rows of a grid, rows numbered from `ri`. -/
def minePositionsFrom : Grid → Nat → List (Nat × Nat)
  | [], _ => []
  | row :: rest, ri => minePositionsRow row ri 0 ++ minePositionsFrom rest (ri + 1)

/-- All mine positions of a grid, in the row-major order Phase 2 visits them. -/
def minePositions (g : Grid) : List (Nat × Nat) := minePositionsFrom g 0

/-- Run `update_adjacent_cells` for a list of mine positions in sequence. -/
def applyMines (total_rows total_cols : Nat) : List (Nat × Nat) → Grid → Option Grid
  | [], g => some g
  | q :: qs, g =>
    match update_adjacent_cells g q.1 q.2 total_rows total_cols with
    | none => none
    | some g' => applyMines total_rows total_cols qs g'

/-- Is there a mine at (possibly negative) coordinates `(i, j)`?  Out-of-grid
coordinates count as no mine. -/
def mineAtZ (g : Grid) (i j : Int) : Bool :=
  0 ≤ i ∧ 0 ≤ j ∧ getCell g i.toNat j.toNat = some MINE_CHAR

/-- Specification count: the number of the up-to-8 in-bounds neighbors of
`(r, c)` that hold a mine. -/
def mineNeighborCount (g : Grid) (r c : Nat) : Nat :=
  neighborOffsets.countP (fun p => mineAtZ g ((r : Int) + p.1) ((c : Int) + p.2))

/-- `(i, j)` is one of the eight neighbors of `(r, c)`. -/
def adjacentB (i j r c : Nat) : Bool :=
  neighborOffsets.any (fun p =>
    decide ((i : Int) = (r : Int) + p.1 ∧ (j : Int) = (c : Int) + p.2))

/-- How many of the eight offsets from mine `(i, j)` target exactly `(r, c)`
(with the wrapping target arithmetic of the code). -/
def hitCount (i j r c : Nat) : Nat :=
  neighborOffsets.countP (fun p =>
    decide (wrapping_add_signed i p.1 = r ∧ wrapping_add_signed j p.2 = c))

/-- Rectangularity: `R` rows, every row of length `C` (phrased via `get?`). -/
def Rect (g : Grid) (R C : Nat) : Prop :=
  g.length = R ∧ ∀ i row, g.get? i = some row → row.length = C

lemma get?_lt_of_some {α} {l : List α} {n : Nat} {a : α} (h : l.get? n = some a) :
    n < l.length := by
  by_contra h'
  rw [List.get?_eq_none.mpr (Nat.le_of_not_lt h')] at h
  cases h

lemma getCell_of_rect {g : Grid} {R C r c : Nat} (hrect : Rect g R C)
    (hr : r < R) (hc : c < C) : ∃ v, getCell g r c = some v := by
  obtain ⟨hlen, hrows⟩ := hrect
  cases hrow : g.get? r with
  | none => rw [List.get?_eq_none] at hrow; omega
  | some row =>
    cases hcell : row.get? c with
    | none =>
      rw [List.get?_eq_none] at hcell
      have := hrows r row hrow
      omega
    | some v => exact ⟨v, by simp only [getCell, hrow, hcell]⟩

/-- Effect of `incrementAt` on an in-bounds cell: the grid shape is preserved,
the target cell is incremented, every other cell is untouched. -/
lemma incrementAt_spec {g : Grid} {r c v : Nat} (h : getCell g r c = some v) :
    ∃ g', incrementAt g r c = some g' ∧
      g'.length = g.length ∧
      (∀ i, (g'.get? i).map List.length = (g.get? i).map List.length) ∧
      (∀ r' c', getCell g' r' c' =
        if r' = r ∧ c' = c then some (increment_cell_value v) else getCell g r' c') := by
  unfold getCell at h
  cases hrow : g.get? r with
  | none => rw [hrow] at h; cases h
  | some row =>
    rw [hrow] at h
    have h' : row.get? c = some v := h
    have hr : r < g.length := get?_lt_of_some hrow
    have hc : c < row.length := get?_lt_of_some h'
    refine ⟨g.set r (row.set c (increment_cell_value v)), ?_, ?_, ?_, ?_⟩
    · simp only [incrementAt, hrow, h']
    · simp
    · intro i
      by_cases hi : i = r
      · subst hi
        rw [List.get?_set_eq_of_lt _ hr, hrow]
        simp
      · rw [List.get?_set_ne _ _ (fun hrr => hi hrr.symm)]
    · intro r' c'
      by_cases hr' : r' = r
      · subst hr'
        by_cases hc' : c' = c
        · subst hc'
          simp only [getCell, List.get?_set_eq_of_lt _ hr]
          rw [List.get?_set_eq_of_lt _ hc]
          simp
        · simp only [hc', and_false, if_false, getCell, List.get?_set_eq_of_lt _ hr, hrow]
          rw [List.get?_set_ne _ _ (fun hcc => hc' hcc.symm)]
      · simp only [hr', false_and, if_false, getCell]
        rw [List.get?_set_ne _ _ (fun hrr => hr' hrr.symm)]

/-- Shape preservation transfers `Rect`. -/
lemma rect_of_shape {g g' : Grid} {R C : Nat} (hrect : Rect g R C)
    (hlen : g'.length = g.length)
    (hshape : ∀ i, (g'.get? i).map List.length = (g.get? i).map List.length) :
    Rect g' R C := by
  obtain ⟨hL, hrows⟩ := hrect
  refine ⟨by omega, ?_⟩
  intro i row hrow
  have := hshape i
  rw [hrow] at this
  cases hrow' : g.get? i with
  | none => rw [hrow'] at this; cases this
  | some row' =>
    have hlen2 : row.length = row'.length := by
      rw [hrow'] at this
      exact Option.some.inj (by simpa using this)
    rw [hlen2]
    exact hrows i row' hrow'

/-- Effect of a sequence of `process_neighbor_cell!` expansions on a
rectangular grid: it always succeeds, keeps the grid rectangular, and applies
`increment_cell_value` to an in-bounds cell `(r, c)` once for every offset
whose (wrapping) target is exactly `(r, c)`. -/
lemma process_neighbors_spec (R C i j : Nat) (ps : List (Int × Int)) :
    ∀ g : Grid, Rect g R C →
    ∃ g', process_neighbors g i j R C ps = some g' ∧ Rect g' R C ∧
      ∀ r c v, r < R → c < C → getCell g r c = some v →
        getCell g' r c = some
          (increment_cell_value^[ps.countP (fun p =>
            decide (wrapping_add_signed i p.1 = r ∧ wrapping_add_signed j p.2 = c))] v) := by
  induction ps with
  | nil =>
    intro g hrect
    exact ⟨g, rfl, hrect, fun r c v _ _ hv => by simpa using hv⟩
  | cons p ps ih =>
    intro g hrect
    by_cases hb : wrapping_add_signed i p.1 < R ∧ wrapping_add_signed j p.2 < C
    · obtain ⟨w, hw⟩ := getCell_of_rect hrect hb.1 hb.2
      obtain ⟨g₁, hg₁, hlen₁, hshape₁, hcell₁⟩ := incrementAt_spec hw
      have hrect₁ : Rect g₁ R C := rect_of_shape hrect hlen₁ hshape₁
      obtain ⟨g', hg', hrect', hcell'⟩ := ih g₁ hrect₁
      refine ⟨g', ?_, hrect', ?_⟩
      · simp only [process_neighbors, process_neighbor_cell, if_pos hb, hg₁, hg']
      · intro r c v hr hc hv
        rw [List.countP_cons]
        by_cases hp : wrapping_add_signed i p.1 = r ∧ wrapping_add_signed j p.2 = c
        · obtain ⟨hp1, hp2⟩ := hp
          rw [hp1, hp2] at hw
          have hvw : w = v := Option.some.inj (hw.symm.trans hv)
          have h₁ : getCell g₁ r c = some (increment_cell_value v) := by
            rw [hcell₁ r c, if_pos ⟨hp1.symm, hp2.symm⟩, hvw]
          rw [hcell' r c (increment_cell_value v) hr hc h₁]
          simp only [decide_eq_true_eq]
          rw [if_pos ⟨hp1, hp2⟩, Function.iterate_succ_apply]
        · have h₁ : getCell g₁ r c = some v := by
            rw [hcell₁ r c, if_neg, hv]
            intro hrc
            exact hp ⟨hrc.1.symm, hrc.2.symm⟩
          rw [hcell' r c v hr hc h₁]
          simp only [decide_eq_true_eq, if_neg hp, Nat.add_zero]
    · obtain ⟨g', hg', hrect', hcell'⟩ := ih g hrect
      refine ⟨g', ?_, hrect', ?_⟩
      · simp only [process_neighbors, process_neighbor_cell, if_neg hb, hg']
      · intro r c v hr hc hv
        rw [List.countP_cons]
        have hp : ¬(wrapping_add_signed i p.1 = r ∧ wrapping_add_signed j p.2 = c) := by
          intro hrc
          exact hb ⟨hrc.1 ▸ hr, hrc.2 ▸ hc⟩
        rw [hcell' r c v hr hc hv]
        simp only [decide_eq_true_eq, if_neg hp, Nat.add_zero]

/-- `update_adjacent_cells` on a rectangular grid: success, shape
preservation, and the `hitCount`-fold effect on every in-bounds cell. -/
lemma update_adjacent_cells_spec {g : Grid} {R C : Nat} (i j : Nat)
    (hrect : Rect g R C) :
    ∃ g', update_adjacent_cells g i j R C = some g' ∧ Rect g' R C ∧
      ∀ r c v, r < R → c < C → getCell g r c = some v →
        getCell g' r c = some (increment_cell_value^[hitCount i j r c] v) :=
  process_neighbors_spec R C i j neighborOffsets g hrect

/-- Effect of a sequence of `update_adjacent_cells` calls (one per mine of the
list) on a rectangular grid. -/
lemma applyMines_spec (R C : Nat) (L : List (Nat × Nat)) :
    ∀ g : Grid, Rect g R C →
    ∃ g', applyMines R C L g = some g' ∧ Rect g' R C ∧
      ∀ r c v, r < R → c < C → getCell g r c = some v →
        getCell g' r c = some
          (increment_cell_value^[(L.map (fun q => hitCount q.1 q.2 r c)).sum] v) := by
  induction L with
  | nil =>
    intro g hrect
    exact ⟨g, rfl, hrect, fun r c v _ _ hv => by simpa using hv⟩
  | cons q L ih =>
    intro g hrect
    obtain ⟨g₁, hg₁, hrect₁, hcell₁⟩ := update_adjacent_cells_spec q.1 q.2 hrect
    obtain ⟨g', hg', hrect', hcell'⟩ := ih g₁ hrect₁
    refine ⟨g', ?_, hrect', ?_⟩
    · simp only [applyMines, hg₁, hg']
    · intro r c v hr hc hv
      rw [hcell' r c _ hr hc (hcell₁ r c v hr hc hv)]
      rw [← Function.iterate_add_apply]
      simp only [List.map_cons, List.sum_cons]
      rw [Nat.add_comm]

lemma applyMines_append (R C : Nat) (L₁ L₂ : List (Nat × Nat)) :
    ∀ g : Grid, applyMines R C (L₁ ++ L₂) g =
      match applyMines R C L₁ g with
      | none => none
      | some g' => applyMines R C L₂ g' := by
  induction L₁ with
  | nil => intro g; rfl
  | cons q L₁ ih =>
    intro g
    simp only [List.cons_append, applyMines]
    cases update_adjacent_cells g q.1 q.2 R C with
    | none => rfl
    | some g' => exact ih g'

/-- The inner Phase 2 loop is the mine-list fold over the mines of the row. -/
lemma scan_cols_eq (R C : Nat) (ri : Nat) (row : List Nat) : ∀ ci g,
    scan_cols row ri ci R C g = applyMines R C (minePositionsRow row ri ci) g := by
  induction row with
  | nil => intro ci g; rfl
  | cons v rest ih =>
    intro ci g
    by_cases hv : v = MINE_CHAR
    · simp only [scan_cols, minePositionsRow, if_pos hv, List.singleton_append,
        applyMines]
      cases update_adjacent_cells g ri ci R C with
      | none => rfl
      | some g' => exact ih (ci + 1) g'
    · simp only [scan_cols, minePositionsRow, if_neg hv, List.nil_append]
      exact ih (ci + 1) g

/-- The outer Phase 2 loop is the mine-list fold over all mines. -/
lemma scan_rows_eq (R C : Nat) (rows : Grid) : ∀ ri g,
    scan_rows rows ri R C g = applyMines R C (minePositionsFrom rows ri) g := by
  induction rows with
  | nil => intro ri g; rfl
  | cons row rest ih =>
    intro ri g
    simp only [scan_rows, minePositionsFrom, applyMines_append, scan_cols_eq]
    cases applyMines R C (minePositionsRow row ri 0) g with
    | none => rfl
    | some g' => exact ih (ri + 1) g'

/-- Raw specification of `annotate` on a rectangular grid: it succeeds, keeps
the dimensions, and each in-bounds cell receives one `increment_cell_value`
per mine-offset pair whose wrapping target is that cell. -/
lemma annotate_spec_raw {g : Grid} {R C : Nat} (hrect : Rect g R C) :
    ∃ out, annotate g = some out ∧ Rect out R C ∧
      ∀ r c v, r < R → c < C → getCell g r c = some v →
        getCell out r c = some
          (increment_cell_value^[((minePositions g).map
            (fun q => hitCount q.1 q.2 r c)).sum] v) := by
  by_cases hg : g = []
  · subst hg
    refine ⟨[], by simp [annotate], hrect, ?_⟩
    intro r c v hr hc hv
    obtain ⟨hlen, _⟩ := hrect
    simp only [List.length_nil] at hlen
    omega
  · have h1 : annotate g = scan_rows g 0 g.length (g.headD []).length g := by
      simp only [annotate, if_neg hg]
    obtain ⟨hlen, hrows⟩ := hrect
    have hhead : (g.headD []).length = C := by
      cases g with
      | nil => exact absurd rfl hg
      | cons row rest => exact hrows 0 row rfl
    rw [h1, hlen, hhead, scan_rows_eq]
    exact applyMines_spec R C (minePositionsFrom g 0) g ⟨hlen, hrows⟩

/-- Counting with a predicate satisfied by at most one element of a
duplicate-free list yields `1` or `0` according to `any`. -/
lemma countP_eq_any_of_unique {α} (f : α → Bool) :
    ∀ ps : List α, ps.Nodup →
      (∀ p ∈ ps, ∀ p' ∈ ps, f p → f p' → p = p') →
      ps.countP f = if ps.any f then 1 else 0 := by
  intro ps
  induction ps with
  | nil => intro _ _; simp
  | cons p ps ih =>
    intro hnd huniq
    rw [List.countP_cons, List.any_cons]
    by_cases hp : f p
    · have hzero : ps.countP f = 0 := by
        rw [List.countP_eq_zero]
        intro p' hp' hfp'
        have hpp : p = p' :=
          huniq p (List.mem_cons_self p ps) p' (List.mem_cons_of_mem p hp') hp hfp'
        rw [List.nodup_cons] at hnd
        exact hnd.1 (hpp ▸ hp')
      rw [hzero, hp]
      simp
    · have hps : ps.countP f = if ps.any f then 1 else 0 := by
        refine ih (List.nodup_cons.mp hnd).2 ?_
        intro a ha a' ha' hfa hfa'
        exact huniq a (List.mem_cons_of_mem p ha) a' (List.mem_cons_of_mem p ha') hfa hfa'
      rw [hps]
      simp [hp]

/-- At most one of the eight offsets makes `(r, c)` plus the offset equal a
given position. -/
lemma adjacent_target_unique (i j r c : Nat) :
    ∀ p ∈ neighborOffsets, ∀ p' ∈ neighborOffsets,
      decide ((i : Int) = (r : Int) + p.1 ∧ (j : Int) = (c : Int) + p.2) →
      decide ((i : Int) = (r : Int) + p'.1 ∧ (j : Int) = (c : Int) + p'.2) →
      p = p' := by
  intro p _ p' _ h1 h2
  simp only [decide_eq_true_eq] at h1 h2
  rw [Prod.ext_iff]
  constructor <;> omega

/-- With in-bounds mine `(i, j)` and in-bounds cell `(r, c)` of a grid whose
dimensions fit in `usize`, the wrapping-target count collapses to a 0/1
indicator of 8-neighborhood adjacency. -/
lemma hitCount_eq {R C : Nat} {i j r c : Nat} (hi : i < R) (hj : j < C)
    (hr : r < R) (hc : c < C) (hR : R < USIZE) (hC : C < USIZE) :
    hitCount i j r c = if adjacentB i j r c then 1 else 0 := by
  simp only [USIZE] at hR hC
  have step2 : hitCount i j r c = neighborOffsets.countP
      ((fun p => decide ((i : Int) = (r : Int) + p.1 ∧ (j : Int) = (c : Int) + p.2)) ∘
        (fun p : Int × Int => (-p.1, -p.2))) := by
    refine List.countP_congr ?_
    intro p hp
    fin_cases hp <;>
      (simp only [decide_eq_true_eq, wrapping_add_signed, USIZE, Function.comp]
       constructor <;> intro <;> omega)
  have step3 : neighborOffsets.countP
      ((fun p => decide ((i : Int) = (r : Int) + p.1 ∧ (j : Int) = (c : Int) + p.2)) ∘
        (fun p : Int × Int => (-p.1, -p.2))) =
      neighborOffsets.countP
        (fun p => decide ((i : Int) = (r : Int) + p.1 ∧ (j : Int) = (c : Int) + p.2)) := by
    rw [← List.countP_map]
    have hmapneg : neighborOffsets.map (fun p : Int × Int => (-p.1, -p.2)) =
        neighborOffsets.reverse := by decide
    rw [hmapneg]
    simp [List.countP_eq_length_filter]
  rw [step2, step3]
  exact countP_eq_any_of_unique _ neighborOffsets (by decide) (adjacent_target_unique i j r c)

lemma mem_minePositionsRow {row : List Nat} {ri : Nat} {q : Nat × Nat} :
    ∀ {ci}, q ∈ minePositionsRow row ri ci ↔
      q.1 = ri ∧ ∃ k, row.get? k = some MINE_CHAR ∧ q.2 = ci + k := by
  induction row with
  | nil => intro ci; simp [minePositionsRow]
  | cons v rest ih =>
    intro ci
    simp only [minePositionsRow, List.mem_append]
    constructor
    · intro h
      rcases h with h | h
      · by_cases hv : v = MINE_CHAR
        · rw [if_pos hv] at h
          simp only [List.mem_singleton] at h
          subst h
          exact ⟨rfl, 0, by simpa using hv, by omega⟩
        · rw [if_neg hv] at h
          cases h
      · obtain ⟨h1, k, hk, h2⟩ := ih.mp h
        refine ⟨h1, k + 1, by simpa using hk, by omega⟩
    · rintro ⟨h1, k, hk, h2⟩
      cases k with
      | zero =>
        have hv : v = MINE_CHAR := by simpa using hk
        left
        rw [if_pos hv, List.mem_singleton, Prod.ext_iff]
        exact ⟨h1, by omega⟩
      | succ k =>
        right
        exact ih.mpr ⟨h1, k, by simpa using hk, by omega⟩

lemma mem_minePositionsFrom {rows : Grid} {q : Nat × Nat} :
    ∀ {ri}, q ∈ minePositionsFrom rows ri ↔
      ∃ n row, rows.get? n = some row ∧ q.1 = ri + n ∧ row.get? q.2 = some MINE_CHAR := by
  induction rows with
  | nil => intro ri; simp [minePositionsFrom]
  | cons row rest ih =>
    intro ri
    simp only [minePositionsFrom, List.mem_append]
    constructor
    · intro h
      rcases h with h | h
      · obtain ⟨h1, k, hk, h2⟩ := mem_minePositionsRow.mp h
        exact ⟨0, row, rfl, by omega, by rw [show q.2 = k by omega]; exact hk⟩
      · obtain ⟨n, row', hn, h1, h2⟩ := ih.mp h
        exact ⟨n + 1, row', by simpa using hn, by omega, h2⟩
    · rintro ⟨n, row', hn, h1, h2⟩
      cases n with
      | zero =>
        left
        have hrr : row = row' := by simpa using hn
        subst hrr
        exact mem_minePositionsRow.mpr ⟨by omega, q.2, h2, by omega⟩
      | succ n =>
        right
        exact ih.mpr ⟨n, row', by simpa using hn, by omega, h2⟩

/-- A position is listed among the mines exactly when the input grid holds a
mine there. -/
lemma mem_minePositions {g : Grid} {q : Nat × Nat} :
    q ∈ minePositions g ↔ getCell g q.1 q.2 = some MINE_CHAR := by
  rw [minePositions, mem_minePositionsFrom]
  constructor
  · rintro ⟨n, row, hn, h1, h2⟩
    have hq1 : q.1 = n := by omega
    simp only [getCell, hq1, hn, h2]
  · intro h
    unfold getCell at h
    cases hrow : g.get? q.1 with
    | none => rw [hrow] at h; cases h
    | some row =>
      rw [hrow] at h
      exact ⟨q.1, row, hrow, by omega, h⟩

lemma nodup_minePositionsRow (row : List Nat) (ri : Nat) :
    ∀ ci, (minePositionsRow row ri ci).Nodup := by
  induction row with
  | nil => intro ci; simp [minePositionsRow]
  | cons v rest ih =>
    intro ci
    simp only [minePositionsRow]
    by_cases hv : v = MINE_CHAR
    · rw [if_pos hv]
      simp only [List.singleton_append, List.nodup_cons]
      refine ⟨?_, ih (ci + 1)⟩
      intro hmem
      obtain ⟨_, k, _, h2⟩ := mem_minePositionsRow.mp hmem
      have h2' : ci = ci + 1 + k := h2
      omega
    · rw [if_neg hv]
      simpa using ih (ci + 1)

lemma nodup_minePositionsFrom (rows : Grid) :
    ∀ ri, (minePositionsFrom rows ri).Nodup := by
  induction rows with
  | nil => intro ri; simp [minePositionsFrom]
  | cons row rest ih =>
    intro ri
    simp only [minePositionsFrom]
    rw [List.nodup_append]
    refine ⟨nodup_minePositionsRow row ri 0, ih (ri + 1), ?_⟩
    intro q hq hq'
    obtain ⟨h1, _, _, _⟩ := mem_minePositionsRow.mp hq
    obtain ⟨n, _, _, h1', _⟩ := mem_minePositionsFrom.mp hq'
    omega

/-- Counting a single position in the mine list is a mine indicator. -/
lemma countP_minePositions_eq (g : Grid) (q : Nat × Nat) :
    (minePositions g).countP (fun x => x == q) =
      if getCell g q.1 q.2 = some MINE_CHAR then 1 else 0 := by
  by_cases hm : getCell g q.1 q.2 = some MINE_CHAR
  · rw [if_pos hm]
    have hq : q ∈ minePositions g := mem_minePositions.mpr hm
    have hnd : (minePositions g).Nodup := nodup_minePositionsFrom g 0
    rw [countP_eq_any_of_unique _ _ hnd ?_]
    · rw [if_pos (List.any_eq_true.mpr ⟨q, hq, by simp⟩)]
    · intro p _ p' _ h1 h2
      have e1 : p = q := by simpa using h1
      have e2 : p' = q := by simpa using h2
      rw [e1, e2]
  · rw [if_neg hm, List.countP_eq_zero]
    intro p hp hbeq
    have hpq : p = q := by simpa using hbeq
    exact hm (hpq ▸ mem_minePositions.mp hp)

lemma countP_or {α} (M : List α) (p q : α → Bool) :
    (∀ x ∈ M, ¬(p x ∧ q x)) →
      M.countP (fun x => p x || q x) = M.countP p + M.countP q := by
  induction M with
  | nil => intro _; simp
  | cons a M ih =>
    intro h
    simp only [List.countP_cons]
    rw [ih (fun x hx => h x (List.mem_cons_of_mem a hx))]
    have ha := h a (List.mem_cons_self a M)
    cases hpa : p a <;> cases hqa : q a
    · simp [hpa, hqa]
    · simp [hpa, hqa]
      try omega
    · simp [hpa, hqa]
      try omega
    · exact absurd ⟨hpa, hqa⟩ ha

/-- Splitting a count over an `any` of pairwise-incompatible predicates. -/
lemma countP_any_split {α β} (M : List α) (f : α → β → Bool) :
    ∀ ps : List β, ps.Nodup →
      (∀ x ∈ M, ∀ p ∈ ps, ∀ p' ∈ ps, f x p → f x p' → p = p') →
      M.countP (fun x => ps.any (fun p => f x p)) =
        (ps.map (fun p => M.countP (fun x => f x p))).sum := by
  intro ps
  induction ps with
  | nil => intro _ _; simp
  | cons p ps ih =>
    intro hnd huniq
    simp only [List.any_cons, List.map_cons, List.sum_cons]
    rw [countP_or M _ _ ?_]
    · rw [ih (List.nodup_cons.mp hnd).2 ?_]
      intro x hx a ha a' ha' hfa hfa'
      exact huniq x hx a (List.mem_cons_of_mem p ha) a' (List.mem_cons_of_mem p ha') hfa hfa'
    · intro x hx ⟨hfp, hany⟩
      obtain ⟨p', hp', hfp'⟩ := List.any_eq_true.mp hany
      have hpp : p = p' :=
        huniq x hx p (List.mem_cons_self p ps) p' (List.mem_cons_of_mem p hp') hfp hfp'
      exact (List.nodup_cons.mp hnd).1 (hpp ▸ hp')

lemma sum_map_indicator {α} (l : List α) (p : α → Bool) :
    (l.map (fun x => if p x then 1 else 0)).sum = l.countP p := by
  induction l with
  | nil => simp
  | cons a l ih =>
    simp only [List.map_cons, List.sum_cons, List.countP_cons, ih]
    cases hpa : p a <;> simp <;> omega

/-- Counting positions targeted by one offset from `(r, c)` in the mine list. -/
lemma countP_minePositions_target (g : Grid) (i j : Int) :
    (minePositions g).countP (fun q => decide ((q.1 : Int) = i ∧ (q.2 : Int) = j)) =
      if mineAtZ g i j then 1 else 0 := by
  by_cases hij : 0 ≤ i ∧ 0 ≤ j
  · have hcongr : ∀ q ∈ minePositions g,
        (decide ((q.1 : Int) = i ∧ (q.2 : Int) = j)) = true ↔
          (q == (i.toNat, j.toNat)) = true := by
      intro q _
      simp only [decide_eq_true_eq, beq_iff_eq, Prod.ext_iff]
      omega
    rw [List.countP_congr hcongr, countP_minePositions_eq]
    by_cases hm : getCell g i.toNat j.toNat = some MINE_CHAR
    · rw [if_pos hm, if_pos]
      simp [mineAtZ, hij.1, hij.2, hm]
    · rw [if_neg hm, if_neg]
      simp [mineAtZ, hij.1, hij.2, hm]
  · rw [List.countP_eq_zero.mpr, if_neg]
    · simp only [mineAtZ]
      intro hcontra
      simp only [decide_eq_true_eq] at hcontra
      exact hij ⟨hcontra.1, hcontra.2.1⟩
    · intro q _ hq
      simp only [decide_eq_true_eq] at hq
      omega

/-- The number of listed mines adjacent to `(r, c)` is the neighbor-mine
count read off the grid. -/
lemma minePositions_countP_adjacent (g : Grid) (r c : Nat) :
    (minePositions g).countP (fun q => adjacentB q.1 q.2 r c) =
      mineNeighborCount g r c := by
  have hsplit := countP_any_split (minePositions g)
      (fun q p => decide ((q.1 : Int) = (r : Int) + p.1 ∧ (q.2 : Int) = (c : Int) + p.2))
      neighborOffsets (by decide) ?_
  · rw [show (fun q : Nat × Nat => adjacentB q.1 q.2 r c) =
        (fun q : Nat × Nat => neighborOffsets.any (fun p =>
          decide ((q.1 : Int) = (r : Int) + p.1 ∧ (q.2 : Int) = (c : Int) + p.2))) from rfl]
    rw [hsplit]
    have hmap : neighborOffsets.map (fun p => (minePositions g).countP (fun q =>
        decide ((q.1 : Int) = (r : Int) + p.1 ∧ (q.2 : Int) = (c : Int) + p.2))) =
        neighborOffsets.map (fun p =>
          if mineAtZ g ((r : Int) + p.1) ((c : Int) + p.2) then 1 else 0) := by
      refine List.map_congr_left ?_
      intro p _
      exact countP_minePositions_target g ((r : Int) + p.1) ((c : Int) + p.2)
    rw [hmap, sum_map_indicator]
    rfl
  · intro x _ p _ p' _ h1 h2
    simp only [decide_eq_true_eq] at h1 h2
    rw [Prod.ext_iff]
    constructor <;> omega

lemma getCell_bounds {g : Grid} {R C r c v : Nat} (hrect : Rect g R C)
    (h : getCell g r c = some v) : r < R ∧ c < C := by
  obtain ⟨hlen, hrows⟩ := hrect
  unfold getCell at h
  cases hrow : g.get? r with
  | none => rw [hrow] at h; cases h
  | some row =>
    rw [hrow] at h
    have h' : row.get? c = some v := h
    have := get?_lt_of_some hrow
    have := get?_lt_of_some h'
    have := hrows r row hrow
    omega

/-- Master theorem: on a rectangular grid with `usize`-representable
dimensions, `annotate` succeeds and each cell's output value is the input
value incremented once per adjacent mine of the input. -/
lemma annotate_getCell {g : Grid} {R C r c v : Nat} (hrect : Rect g R C)
    (hR : R < USIZE) (hC : C < USIZE) (hv : getCell g r c = some v) :
    ∃ out, annotate g = some out ∧ Rect out R C ∧
      getCell out r c = some (increment_cell_value^[mineNeighborCount g r c] v) := by
  obtain ⟨hr, hc⟩ := getCell_bounds hrect hv
  obtain ⟨out, hout, hrect', hcell⟩ := annotate_spec_raw hrect
  refine ⟨out, hout, hrect', ?_⟩
  rw [hcell r c v hr hc hv]
  have h1 : (minePositions g).map (fun q => hitCount q.1 q.2 r c) =
      (minePositions g).map (fun q => if adjacentB q.1 q.2 r c then 1 else 0) := by
    refine List.map_congr_left ?_
    intro q hq
    have hqm := mem_minePositions.mp hq
    obtain ⟨hq1, hq2⟩ := getCell_bounds hrect hqm
    exact hitCount_eq hq1 hq2 hr hc hR hC
  rw [h1, sum_map_indicator, minePositions_countP_adjacent]

lemma increment_mine : increment_cell_value MINE_CHAR = MINE_CHAR := by decide

lemma incrementAt_some_getCell {g g' : Grid} {a b : Nat}
    (h : incrementAt g a b = some g') : ∃ v, getCell g a b = some v := by
  cases hrow : g.get? a with
  | none => simp only [incrementAt, hrow] at h; cases h
  | some row =>
    cases hcell : row.get? b with
    | none => simp only [incrementAt, hrow, hcell] at h; cases h
    | some v => exact ⟨v, by simp only [getCell, hrow, hcell]⟩

/-- A successful `incrementAt` never changes a mine cell (incrementing `'*'`
is the identity) and never changes any other position either. -/
lemma incrementAt_preserves_mine {g g' : Grid} {a b r c : Nat}
    (h : incrementAt g a b = some g') (hm : getCell g r c = some MINE_CHAR) :
    getCell g' r c = some MINE_CHAR := by
  obtain ⟨v, hv⟩ := incrementAt_some_getCell h
  obtain ⟨g'', h'', _, _, hcell⟩ := incrementAt_spec hv
  have hg : g'' = g' := Option.some.inj (h''.symm.trans h)
  subst hg
  by_cases hrc : r = a ∧ c = b
  · rw [hcell r c, if_pos hrc]
    obtain ⟨h1, h2⟩ := hrc
    rw [h1, h2] at hm
    have hvm : v = MINE_CHAR := Option.some.inj (hv.symm.trans hm)
    rw [hvm, increment_mine]
  · rw [hcell r c, if_neg hrc]
    exact hm

lemma process_neighbor_preserves_mine {g g' : Grid} {i j R C : Nat} {p : Int × Int}
    (h : process_neighbor_cell g i j R C p = some g') {r c : Nat}
    (hm : getCell g r c = some MINE_CHAR) : getCell g' r c = some MINE_CHAR := by
  simp only [process_neighbor_cell] at h
  split at h
  · exact incrementAt_preserves_mine h hm
  · exact (Option.some.inj h) ▸ hm

lemma process_neighbors_preserves_mine {i j R C : Nat} :
    ∀ (ps : List (Int × Int)) {g g' : Grid},
      process_neighbors g i j R C ps = some g' →
      ∀ {r c : Nat}, getCell g r c = some MINE_CHAR →
        getCell g' r c = some MINE_CHAR := by
  intro ps
  induction ps with
  | nil => intro g g' h r c hm; exact (Option.some.inj h) ▸ hm
  | cons p ps ih =>
    intro g g' h r c hm
    cases hp : process_neighbor_cell g i j R C p with
    | none => simp only [process_neighbors, hp] at h; cases h
    | some g₁ =>
      simp only [process_neighbors, hp] at h
      exact ih h (process_neighbor_preserves_mine hp hm)

lemma applyMines_preserves_mine {R C : Nat} :
    ∀ (L : List (Nat × Nat)) {g g' : Grid},
      applyMines R C L g = some g' →
      ∀ {r c : Nat}, getCell g r c = some MINE_CHAR →
        getCell g' r c = some MINE_CHAR := by
  intro L
  induction L with
  | nil => intro g g' h r c hm; exact (Option.some.inj h) ▸ hm
  | cons q L ih =>
    intro g g' h r c hm
    cases hu : update_adjacent_cells g q.1 q.2 R C with
    | none => simp only [applyMines, hu] at h; cases h
    | some g₁ =>
      simp only [applyMines, hu] at h
      exact ih h (process_neighbors_preserves_mine neighborOffsets hu hm)

/-- Iterating the cell increment on a blank cell: the first increment turns
`' '` into `'1'`, each further one adds 1, so `k ≤ 8` increments give the
digit byte `48 + k`. -/
lemma iterate_increment_blank {k : Nat} (hk : k ≤ 8) :
    increment_cell_value^[k] SPACE_CHAR =
      if k = 0 then SPACE_CHAR else 48 + k := by
  interval_cases k <;> decide

lemma mineNeighborCount_le_eight (g : Grid) (r c : Nat) :
    mineNeighborCount g r c ≤ 8 :=
  le_trans (List.countP_le_length _) (by decide)

end Minesweeper

namespace Anagram

/-- Rust `str::to_lowercase`, modelled character-wise via `Char.toLower`. -/
def toLowercase (s : List Char) : List Char := s.map Char.toLower

/-- Insert a character into a list sorted by code point. -/
def insertSorted (c : Char) : List Char → List Char
  | [] => [c]
  | d :: rest => if c.toNat ≤ d.toNat then c :: d :: rest else d :: insertSorted c rest

/-- `get_sorted` (identical in both source files): collect the characters of
the word and `sort_unstable` them.  Characters comparing equal are identical,
so every correct sort returns the same list; insertion sort here. -/
def get_sorted (word : List Char) : List Char := word.foldr insertSorted []

/-- `anagrams_for` from `anagram.rs` (v1): keep the candidates whose length
matches, whose lowercase form differs from the target's, and whose sorted
lowercase characters match the target's, in the source's order of checks.
The Rust function collects into a `HashSet<&str>`; the underlying filtered
sequence is kept here, and set equality and membership are what the theorems
state. -/
def anagrams_for_v1 (word : List Char) (possible_anagrams : List (List Char)) :
    List (List Char) :=
  let word_sorted := get_sorted (toLowercase word)
  possible_anagrams.filter (fun anagram =>
    anagram.length == word.length &&
    (!(toLowercase anagram == toLowercase word) &&
     (word_sorted == get_sorted (toLowercase anagram))))

/-- `anagrams_for` from `anagram_v2.rs` (v2): the length check runs first and
returns `false` early; only then is the candidate lowercased and compared. -/
def anagrams_for_v2 (word : List Char) (possible_anagrams : List (List Char)) :
    List (List Char) :=
  let lower_word := toLowercase word
  let word_sorted := get_sorted lower_word
  let word_length := word.length
  possible_anagrams.filter (fun anagram_candidate =>
    if anagram_candidate.length != word_length then false
    else
      let lower_anagram_candidate := toLowercase anagram_candidate
      !(lower_anagram_candidate == lower_word) &&
      (word_sorted == get_sorted lower_anagram_candidate))

/-- The two implementations filter with pointwise-equal predicates. -/
lemma anagram_versions_agree (word : List Char) (cands : List (List Char)) :
    anagrams_for_v1 word cands = anagrams_for_v2 word cands := by
  unfold anagrams_for_v1 anagrams_for_v2
  refine List.filter_congr ?_
  intro a _
  by_cases hl : a.length = word.length
  · simp [hl]
  · simp [hl]

/-- Membership in the v1 result, unfolded to the three checks. -/
lemma mem_anagrams_v1 (word cand : List Char) (cands : List (List Char)) :
    cand ∈ anagrams_for_v1 word cands ↔
      cand ∈ cands ∧ cand.length = word.length ∧
      get_sorted (toLowercase cand) = get_sorted (toLowercase word) ∧
      toLowercase cand ≠ toLowercase word := by
  rw [anagrams_for_v1, List.mem_filter]
  simp only [Bool.and_eq_true, beq_iff_eq, Bool.not_eq_true', beq_eq_false_iff_ne]
  constructor
  · rintro ⟨h1, h2, h3, h4⟩
    exact ⟨h1, h2, h4.symm, h3⟩
  · rintro ⟨h1, h2, h3, h4⟩
    exact ⟨h1, h2, h4, h3.symm⟩

end Anagram

namespace Minesweeper

/-- C1: for every rectangular input grid (with `usize`-representable
dimensions) whose cells are only mine `'*'` or blank `' '`, `annotate` maps
each blank cell to the exact count of mine cells among its up-to-8 in-bounds
neighbors — emitted as the byte `48 + k` (digit `'1'`..`'8'`) when the count
`k` is positive, left blank when it is zero — and no emitted count
exceeds 8. -/
theorem annotate_blank_neighbor_count (g : Grid) (R C r c : Nat)
    (hR : g.length = R) (hC : ∀ row ∈ g, row.length = C)
    (hRU : R < USIZE) (hCU : C < USIZE)
    (hcells : ∀ row ∈ g, ∀ v ∈ row, v = SPACE_CHAR ∨ v = MINE_CHAR)
    (hblank : getCell g r c = some SPACE_CHAR) :
    ∃ out, annotate g = some out ∧
      mineNeighborCount g r c ≤ 8 ∧
      getCell out r c = some
        (if mineNeighborCount g r c = 0 then SPACE_CHAR
         else 48 + mineNeighborCount g r c) := by
  have hrect : Rect g R C := ⟨hR, fun i row hrow => hC row (List.get?_mem hrow)⟩
  obtain ⟨out, hout, _, hcell⟩ := annotate_getCell hrect hRU hCU hblank
  refine ⟨out, hout, mineNeighborCount_le_eight g r c, ?_⟩
  rw [hcell, iterate_increment_blank (mineNeighborCount_le_eight g r c)]

/-- Witness for C1: the blank corner of `[" *", "  "]` gets count 1. -/
theorem annotate_blank_neighbor_count_witness :
    (getCell [[32, 42], [32, 32]] 0 0 = some SPACE_CHAR) ∧
    (∃ out, annotate [[32, 42], [32, 32]] = some out ∧
      mineNeighborCount [[32, 42], [32, 32]] 0 0 ≤ 8 ∧
      getCell out 0 0 = some
        (if mineNeighborCount [[32, 42], [32, 32]] 0 0 = 0 then SPACE_CHAR
         else 48 + mineNeighborCount [[32, 42], [32, 32]] 0 0)) :=
  ⟨by decide, annotate_blank_neighbor_count [[32, 42], [32, 32]] 2 2 0 0 rfl
    (by decide) (by decide) (by decide) (by decide) (by decide)⟩

/-- C2 (counterexample): on `[" * ", "   ", " * "]` the output claimed by the
spec, `[" 1 ", " 2 ", " 1 "]`, is not what `annotate` returns (the spec's
Scenario 2 even puts a digit where the input has a mine). -/
theorem annotate_scenario2_spec_false :
    annotate [[32, 42, 32], [32, 32, 32], [32, 42, 32]] ≠
      some [[32, 49, 32], [32, 50, 32], [32, 49, 32]] := by decide

/-- C2 (amended): `annotate [" * ", "   ", " * "]` returns
`["1*1", "222", "1*1"]`. -/
theorem annotate_scenario2_actual :
    annotate [[32, 42, 32], [32, 32, 32], [32, 42, 32]] =
      some [[49, 42, 49], [50, 50, 50], [49, 42, 49]] := by decide

/-- C3 (counterexample): an input digit cell adjacent to a mine does not pass
through unchanged — in `["*1"]` the digit `'1'` (49) becomes `'2'` (50)
(`annotate` still returns a result, so there is no crash). -/
theorem annotate_digit_changed_counterexample :
    getCell [[42, 49]] 0 1 = some 49 ∧
    annotate [[42, 49]] = some [[42, 50]] ∧
    getCell [[42, 50]] 0 1 ≠ some 49 := by decide

/-- C3 (amended): on a rectangular grid (with `usize`-representable
dimensions), an input cell holding a digit `'1'`..`'8'` with no mine among
its neighbors appears unchanged at the same position, and `annotate` returns
a result (does not crash) on such input. -/
theorem annotate_digit_no_adjacent_mine_unchanged (g : Grid) (R C r c v : Nat)
    (hR : g.length = R) (hC : ∀ row ∈ g, row.length = C)
    (hRU : R < USIZE) (hCU : C < USIZE)
    (hv : getCell g r c = some v)
    (hdig : DIGIT_ONE ≤ v ∧ v ≤ 56)
    (hzero : mineNeighborCount g r c = 0) :
    ∃ out, annotate g = some out ∧ getCell out r c = some v := by
  have hrect : Rect g R C := ⟨hR, fun i row hrow => hC row (List.get?_mem hrow)⟩
  obtain ⟨out, hout, _, hcell⟩ := annotate_getCell hrect hRU hCU hv
  rw [hzero] at hcell
  exact ⟨out, hout, by simpa using hcell⟩

/-- Witness for the amended C3: the digit grid `["1"]` has no mines and the
digit survives. -/
theorem annotate_digit_no_adjacent_mine_unchanged_witness :
    (getCell [[49]] 0 0 = some 49 ∧ mineNeighborCount [[49]] 0 0 = 0) ∧
    (∃ out, annotate [[49]] = some out ∧ getCell out 0 0 = some 49) :=
  ⟨by decide, annotate_digit_no_adjacent_mine_unchanged [[49]] 1 1 0 0 49 rfl
    (by decide) (by decide) (by decide) (by decide) (by decide) (by decide)⟩

/-- C4: every input mine position holds a mine in the output (the embedding
is a pure function on the input lists: the Rust `annotate` takes its input by
shared reference and only ever writes a fresh working grid, so the caller's
grid is not mutated). -/
theorem annotate_preserves_mines (g out : Grid) (h : annotate g = some out)
    (r c : Nat) (hm : getCell g r c = some MINE_CHAR) :
    getCell out r c = some MINE_CHAR := by
  by_cases hg : g = []
  · subst hg
    exact Option.noConfusion hm
  · simp only [annotate, if_neg hg] at h
    rw [scan_rows_eq] at h
    exact applyMines_preserves_mine (minePositionsFrom g 0) h hm

/-- Witness for C4 on the one-mine grid `["*"]`. -/
theorem annotate_preserves_mines_witness :
    (annotate [[42]] = some [[42]] ∧ getCell [[42]] 0 0 = some MINE_CHAR) ∧
    getCell [[42]] 0 0 = some MINE_CHAR :=
  ⟨by decide, annotate_preserves_mines [[42]] [[42]] (by decide) 0 0 (by decide)⟩

/-- C5: on a rectangular grid the output has the same number of rows, and
each output row has the length of the corresponding input row. -/
theorem annotate_preserves_dimensions (g : Grid) (C : Nat)
    (hC : ∀ row ∈ g, row.length = C) :
    ∃ out, annotate g = some out ∧ out.length = g.length ∧
      ∀ i row row', g.get? i = some row → out.get? i = some row' →
        row'.length = row.length := by
  have hrect : Rect g g.length C := ⟨rfl, fun i row hrow => hC row (List.get?_mem hrow)⟩
  obtain ⟨out, hout, hrect', _⟩ := annotate_spec_raw hrect
  obtain ⟨hlen', hrows'⟩ := hrect'
  refine ⟨out, hout, hlen', ?_⟩
  intro i row row' hrow hrow'
  rw [hrows' i row' hrow', hC row (List.get?_mem hrow)]

/-- Witness for C5 on the 1×2 grid `[" *"]`. -/
theorem annotate_preserves_dimensions_witness :
    (∀ row ∈ ([[32, 42]] : Grid), row.length = 2) ∧
    (∃ out, annotate [[32, 42]] = some out ∧ out.length = ([[32, 42]] : Grid).length ∧
      ∀ i row row', ([[32, 42]] : Grid).get? i = some row → out.get? i = some row' →
        row'.length = row.length) :=
  ⟨by decide, annotate_preserves_dimensions [[32, 42]] 2 (by decide)⟩

/-- C7: the empty grid annotates to the empty grid. -/
theorem annotate_empty : annotate ([] : Grid) = some ([] : Grid) := rfl

/-- C8: `annotate` is not idempotent — re-running it on its own output
changes the grid again (a grid with a mine next to a blank witnesses it:
`["* "]` becomes `["*1"]`, which becomes `["*2"]`). -/
theorem annotate_not_idempotent :
    ∃ g : Grid, (annotate g).bind annotate ≠ annotate g :=
  ⟨[[MINE_CHAR, SPACE_CHAR]], by decide⟩

/-- C10: on a rectangular grid (every row as long as the first), every
neighbor access passes the bounds check against the row count and the first
row's length, so `annotate` never reaches the out-of-bounds (`none`)
branch of the embedded indexing. -/
theorem annotate_in_bounds_total (g : Grid)
    (hrect : ∀ row ∈ g, row.length = (g.headD []).length) :
    (annotate g).isSome := by
  obtain ⟨out, hout, _, _⟩ :=
    @annotate_spec_raw g g.length (g.headD []).length
      ⟨rfl, fun i row hrow => hrect row (List.get?_mem hrow)⟩
  rw [hout]
  rfl

/-- Witness for C10 on `["* "]`. -/
theorem annotate_in_bounds_total_witness :
    (∀ row ∈ ([[42, 32]] : Grid), row.length = (([[42, 32]] : Grid).headD []).length) ∧
    (annotate [[42, 32]]).isSome :=
  ⟨by decide, annotate_in_bounds_total [[42, 32]] (by decide)⟩

end Minesweeper

namespace Anagram

/-- C6: a candidate appears in `anagrams_for`'s result (both versions) iff
its length equals the target's, its sorted lowercased character sequence
equals the target's, and its lowercase form differs from the target's; the
members are the original-cased candidate strings. -/
theorem anagrams_for_membership_spec (word cand : List Char)
    (cands : List (List Char)) :
    (cand ∈ anagrams_for_v1 word cands ↔
      cand ∈ cands ∧ cand.length = word.length ∧
      get_sorted (toLowercase cand) = get_sorted (toLowercase word) ∧
      toLowercase cand ≠ toLowercase word) ∧
    (cand ∈ anagrams_for_v2 word cands ↔
      cand ∈ cands ∧ cand.length = word.length ∧
      get_sorted (toLowercase cand) = get_sorted (toLowercase word) ∧
      toLowercase cand ≠ toLowercase word) :=
  ⟨mem_anagrams_v1 word cand cands, by
    rw [← anagram_versions_agree]
    exact mem_anagrams_v1 word cand cands⟩

/-- C9: the two implementations return equal result sets on every input (the
filtered sequences are equal, hence so are the hash sets collected from
them). -/
theorem anagrams_for_v1_eq_v2 (word : List Char) (cands : List (List Char)) :
    anagrams_for_v1 word cands = anagrams_for_v2 word cands :=
  anagram_versions_agree word cands

end Anagram
